import Mathlib

/-!
# Verification of the Habit-Tracker core (habit_tracker.py)

Shallow embedding of the `Habit` and `HabitTracker` classes.

Modelling conventions:

* A Python naive `datetime` is a pair of a calendar day and a time-of-day
  offset.  `DateTime.day` is the day ordinal shifted so that day `0` is a
  Monday (Python's `date.toordinal() - 1`; ordinal 1, Jan 1 of year 1, is a
  Monday in the proleptic Gregorian calendar).  Consequently
  `date.weekday() = day % 7` and `date - timedelta(days = date.weekday())`
  has day `day - day % 7`.  `DateTime.tod` is the time elapsed inside the
  day (microseconds in Python; any unit works, it is never interpreted).
* `c.date()` is modelled by `DateTime.day : ℤ`; arithmetic with
  `timedelta(days = n)` is integer arithmetic on `day`, leaving `tod`
  untouched, exactly as in Python.
* Python `%` on integers agrees with `Int.emod` for a positive modulus
  (both return a result in `[0, 7)` for `% 7`).
* Exceptions are explicit values of type `PyErr`; operations that can raise
  return the post-state paired with `Option PyErr` (in each operation of
  the source the raise happens before any mutation, so on an error the
  state is the original one).
-/

/-- The two admissible periodicity strings of the source, as an enum.
The string-level validation of `Habit.__init__` lives in `mkHabit`. -/
inductive Periodicity where
  | daily
  | weekly
deriving DecidableEq

/-- A Python naive `datetime`: `day` = `toordinal () - 1` of its date
(so `day % 7` is Python's `weekday()`, Monday = 0), `tod` = offset inside
the day. -/
structure DateTime where
  day : ℤ
  tod : ℕ
deriving DecidableEq

/-- Python exceptions raised by the source: `ValueError` in
`Habit.__init__`, `IndexError` from list indexing. -/
inductive PyErr where
  | valueError
  | indexError
deriving DecidableEq

/-- The `Habit` object: `name`, validated `periodicity`, `created_at`,
and the ordered `completions` list. -/
structure Habit where
  name : String
  periodicity : Periodicity
  created_at : DateTime
  completions : List DateTime
deriving DecidableEq

/-- `Habit.__init__`: rejects a periodicity string other than
`"daily"`/`"weekly"` with a `ValueError`; otherwise stores the fields.
The callers resolve the `created_at or datetime.now()` and
`completions or []` defaults (both are value-preserving when the argument
is given: a `datetime` is always truthy, and `[] or []` is `[]`). -/
def mkHabit (name : String) (periodicity : String) (created_at : DateTime)
    (completions : List DateTime) : Except PyErr Habit :=
  if periodicity = "daily" then
    Except.ok ⟨name, Periodicity.daily, created_at, completions⟩
  else if periodicity = "weekly" then
    Except.ok ⟨name, Periodicity.weekly, created_at, completions⟩
  else
    Except.error PyErr.valueError

/-- The `already_completed` test of `Habit.complete`: daily compares
calendar dates, weekly compares Monday-aligned week starts
(`x - timedelta(days = x.weekday())`). -/
def Habit.already_completed (h : Habit) (date : DateTime) : Bool :=
  match h.periodicity with
  | Periodicity.daily => h.completions.any (fun c => c.day == date.day)
  | Periodicity.weekly =>
      let week_start := date.day - date.day % 7
      h.completions.any (fun c => c.day - c.day % 7 == week_start)

/-- `Habit.complete(date)`: appends `date` unless some completion already
falls in `date`'s period. -/
def Habit.complete (h : Habit) (date : DateTime) : Habit :=
  if h.already_completed date then h
  else { h with completions := h.completions ++ [date] }

/-- The set `{c.date() for c in self.completions}` of the daily branch of
`Habit.streak`. -/
def dailyDates (h : Habit) : Finset ℤ :=
  (h.completions.map (fun c => c.day)).toFinset

/-- The set `completed_weeks` of the weekly branch of `Habit.streak`:
`c.date() - timedelta(days = c.date().weekday())` for each completion. -/
def weeklyWeeks (h : Habit) : Finset ℤ :=
  (h.completions.map (fun c => c.day - c.day % 7)).toFinset

lemma filter_le_ssubset {k : ℤ} (hk : 0 < k) {s : Finset ℤ} {d : ℤ}
    (hd : d ∈ s) :
    s.filter (fun x => x ≤ d - k) ⊂ s.filter (fun x => x ≤ d) := by
  have hsub : s.filter (fun x => x ≤ d - k) ⊆ s.filter (fun x => x ≤ d) := by
    intro x hx
    rw [Finset.mem_filter] at hx ⊢
    exact ⟨hx.1, by omega⟩
  rw [Finset.ssubset_iff_of_subset hsub]
  exact ⟨d, Finset.mem_filter.mpr ⟨hd, le_refl d⟩, by
    simp only [Finset.mem_filter, not_and]
    intro _
    omega⟩

/-- The backward-counting `while current in completed: streak += 1;
current -= step` loop of `Habit.streak`, with step `k` (1 for daily, 7 for
weekly).  It terminates because each iteration strictly shrinks the set of
completed periods at or before the current one. -/
def runLen (k : ℤ) (hk : 0 < k) (s : Finset ℤ) (d : ℤ) : ℕ :=
  if hd : d ∈ s then runLen k hk s (d - k) + 1 else 0
termination_by (s.filter (fun x => x ≤ d)).card
decreasing_by
  exact Finset.card_lt_card (filter_le_ssubset hk hd)

lemma runLen_eq (k : ℤ) (hk : 0 < k) (s : Finset ℤ) (d : ℤ) :
    runLen k hk s d = if d ∈ s then runLen k hk s (d - k) + 1 else 0 := by
  rw [runLen]
  by_cases hd : d ∈ s <;> simp [hd]

lemma runLen_of_not_mem (k : ℤ) (hk : 0 < k) (s : Finset ℤ) (d : ℤ)
    (hd : d ∉ s) : runLen k hk s d = 0 := by
  rw [runLen_eq]
  simp [hd]

lemma runLen_pos (k : ℤ) (hk : 0 < k) (s : Finset ℤ) (d : ℤ)
    (hd : d ∈ s) : 0 < runLen k hk s d := by
  rw [runLen_eq]
  simp [hd]

/-- The loop visits exactly the consecutive run: every visited period is
completed, the period one step past the result is not, and the number of
iterations is bounded by the number of completed periods at or before the
start. -/
lemma runLen_spec_aux (k : ℤ) (hk : 0 < k) (s : Finset ℤ) :
    ∀ N : ℕ, ∀ d : ℤ, (s.filter (fun x => x ≤ d)).card ≤ N →
      (∀ i : ℕ, i < runLen k hk s d → d - k * (i : ℤ) ∈ s) ∧
      d - k * (runLen k hk s d : ℤ) ∉ s ∧
      runLen k hk s d ≤ (s.filter (fun x => x ≤ d)).card := by
  intro N
  induction N with
  | zero =>
      intro d hcard
      have hd : d ∉ s := by
        intro hmem
        have : d ∈ s.filter (fun x => x ≤ d) :=
          Finset.mem_filter.mpr ⟨hmem, le_refl d⟩
        have := Finset.card_pos.mpr ⟨d, this⟩
        omega
      rw [runLen_of_not_mem k hk s d hd]
      refine ⟨fun i hi => absurd hi (by omega), ?_, by omega⟩
      simpa using hd
  | succ N ih =>
      intro d hcard
      by_cases hd : d ∈ s
      · have hlt : (s.filter (fun x => x ≤ d - k)).card <
            (s.filter (fun x => x ≤ d)).card :=
          Finset.card_lt_card (filter_le_ssubset hk hd)
        obtain ⟨ih1, ih2, ih3⟩ := ih (d - k) (by omega)
        have heq : runLen k hk s d = runLen k hk s (d - k) + 1 := by
          rw [runLen_eq]
          simp [hd]
        refine ⟨?_, ?_, by omega⟩
        · intro i hi
          cases i with
          | zero => simpa using hd
          | succ j =>
              have hj : j < runLen k hk s (d - k) := by omega
              have := ih1 j hj
              have harith : d - k * ((j : ℤ) + 1) = d - k - k * (j : ℤ) := by
                ring
              rw [show ((Nat.succ j : ℕ) : ℤ) = (j : ℤ) + 1 by push_cast; ring,
                harith]
              exact this
        · rw [heq]
          have harith : d - k * (((runLen k hk s (d - k) : ℕ) + 1 : ℕ) : ℤ) =
              d - k - k * ((runLen k hk s (d - k) : ℕ) : ℤ) := by
            push_cast
            ring
          rw [harith]
          exact ih2
      · rw [runLen_of_not_mem k hk s d hd]
        refine ⟨fun i hi => absurd hi (by omega), ?_, by omega⟩
        simpa using hd

lemma runLen_mem (k : ℤ) (hk : 0 < k) (s : Finset ℤ) (d : ℤ) :
    ∀ i : ℕ, i < runLen k hk s d → d - k * (i : ℤ) ∈ s :=
  (runLen_spec_aux k hk s (s.filter (fun x => x ≤ d)).card d (le_refl _)).1

lemma runLen_gap (k : ℤ) (hk : 0 < k) (s : Finset ℤ) (d : ℤ) :
    d - k * (runLen k hk s d : ℤ) ∉ s :=
  (runLen_spec_aux k hk s (s.filter (fun x => x ≤ d)).card d (le_refl _)).2.1

lemma runLen_le_card (k : ℤ) (hk : 0 < k) (s : Finset ℤ) (d : ℤ) :
    runLen k hk s d ≤ (s.filter (fun x => x ≤ d)).card :=
  (runLen_spec_aux k hk s (s.filter (fun x => x ≤ d)).card d (le_refl _)).2.2

/-- The run length is the unique `n` such that all `n` periods counting
backwards from `d` are completed and the next one is not. -/
lemma runLen_unique (k : ℤ) (hk : 0 < k) (s : Finset ℤ) (d : ℤ) (n : ℕ)
    (h1 : ∀ i : ℕ, i < n → d - k * (i : ℤ) ∈ s)
    (h2 : d - k * (n : ℤ) ∉ s) : n = runLen k hk s d := by
  rcases lt_trichotomy n (runLen k hk s d) with h | h | h
  · exact absurd (runLen_mem k hk s d n h) h2
  · exact h
  · exact absurd (h1 (runLen k hk s d) h) (runLen_gap k hk s d)

lemma seven_pos : (0 : ℤ) < 7 := by norm_num

/-- `Habit.streak(reference)`: 0 on an empty completions list; otherwise
the backward count over the set of completed days (daily, step one day) or
completed Monday-aligned weeks (weekly, step seven days), after the
source's early `return 0` when the reference period is not completed. -/
def Habit.streak (h : Habit) (reference : DateTime) : ℕ :=
  if h.completions = [] then 0
  else
    match h.periodicity with
    | Periodicity.daily =>
        let completed_dates := dailyDates h
        let current_date := reference.day
        if current_date ∉ completed_dates then 0
        else runLen 1 one_pos completed_dates current_date
    | Periodicity.weekly =>
        let completed_weeks := weeklyWeeks h
        let current_week := reference.day - reference.day % 7
        if current_week ∉ completed_weeks then 0
        else runLen 7 seven_pos completed_weeks current_week

/-- The rendering of the two periodicity values stored by the source
(`self.periodicity` is one of the two validated strings). -/
def periodicityStr : Periodicity → String
  | Periodicity.daily => "daily"
  | Periodicity.weekly => "weekly"

/-- A serialized timestamp.  Python's `datetime.isoformat` /
`datetime.fromisoformat` are exact mutual inverses on naive datetimes
(documented library behaviour), so the embedding identifies an ISO-8601
string with the instant it denotes. -/
structure IsoString where
  val : DateTime
deriving DecidableEq

/-- `datetime.isoformat()` (library function, modelled as the canonical
injection into serialized form). -/
def DateTime.isoformat (d : DateTime) : IsoString := ⟨d⟩

/-- `datetime.fromisoformat(s)` (library function, the inverse of
`isoformat` on naive datetimes). -/
def fromisoformat (s : IsoString) : DateTime := s.val

@[simp] lemma fromisoformat_isoformat (d : DateTime) :
    fromisoformat d.isoformat = d := rfl

/-- The dictionary produced by `Habit.to_dict`. -/
structure HabitDict where
  name : String
  periodicity : String
  created_at : IsoString
  completions : List IsoString
deriving DecidableEq

/-- `Habit.to_dict()`. -/
def Habit.to_dict (h : Habit) : HabitDict :=
  { name := h.name
    periodicity := periodicityStr h.periodicity
    created_at := h.created_at.isoformat
    completions := h.completions.map (fun c => c.isoformat) }

/-- `Habit.from_dict(data)`: parses the timestamps and rebuilds the habit
through the validating constructor. -/
def Habit.from_dict (data : HabitDict) : Except PyErr Habit :=
  mkHabit data.name data.periodicity (fromisoformat data.created_at)
    (data.completions.map fromisoformat)

/-- The `HabitTracker`'s in-memory state: the ordered habit list.  The
backing file name and the save/load I/O are external collaborators; every
operation below returns the post-state (the source persists it verbatim
afterwards). -/
structure HabitTracker where
  habits : List Habit
deriving DecidableEq

/-- Python list indexing: a negative index counts from the end; the access
raises `IndexError` exactly when the adjusted index is outside
`[0, len)`. -/
def pyIdx (n : ℕ) (i : ℤ) : Option (Fin n) :=
  if h : 0 ≤ (if i < 0 then i + n else i) ∧ (if i < 0 then i + n else i) < n
  then some ⟨(if i < 0 then i + n else i).toNat, by omega⟩
  else none

/-- `HabitTracker.add_habit(name, periodicity)`: `Habit(name, periodicity)`
is constructed (raising `ValueError` on a bad periodicity, before any
mutation) and appended. -/
def HabitTracker.add_habit (t : HabitTracker) (name : String)
    (periodicity : String) (now : DateTime) :
    HabitTracker × Option PyErr :=
  match mkHabit name periodicity now [] with
  | Except.error e => (t, some e)
  | Except.ok h => (⟨t.habits ++ [h]⟩, none)

/-- `HabitTracker.complete_habit(index, date)`: `self.habits[index]` raises
`IndexError` for an invalid index (before any mutation); otherwise that
habit's `complete` runs in place. -/
def HabitTracker.complete_habit (t : HabitTracker) (index : ℤ)
    (date : DateTime) : HabitTracker × Option PyErr :=
  match pyIdx t.habits.length index with
  | none => (t, some PyErr.indexError)
  | some j => (⟨t.habits.set j ((t.habits.get j).complete date)⟩, none)

/-- `HabitTracker.delete_habit(index)`: `del self.habits[index]`. -/
def HabitTracker.delete_habit (t : HabitTracker) (index : ℤ) :
    HabitTracker × Option PyErr :=
  match pyIdx t.habits.length index with
  | none => (t, some PyErr.indexError)
  | some j => (⟨t.habits.eraseIdx j⟩, none)

/-- `HabitTracker.longest_streak_all()`: `None` on an empty collection;
otherwise `reduce` with no initializer, i.e. a left fold over the tail
starting from the head, keeping the accumulator on ties
(`a if a.streak() >= b.streak() else b`). -/
def HabitTracker.longest_streak_all (t : HabitTracker) (now : DateTime) :
    Option Habit :=
  match t.habits with
  | [] => none
  | a :: rest =>
      some (rest.foldl
        (fun x y => if y.streak now ≤ x.streak now then x else y) a)

/-- `HabitTracker.longest_streak_for(index)`. -/
def HabitTracker.longest_streak_for (t : HabitTracker) (index : ℤ)
    (now : DateTime) : Except PyErr ℕ :=
  match pyIdx t.habits.length index with
  | none => Except.error PyErr.indexError
  | some j => Except.ok ((t.habits.get j).streak now)

/-- `HabitTracker.seed_data()` as a function of the construction time
`now`: `base = now - 35 days`, three daily habits with `4 * 7` daily
completions and two weekly habits with `4` weekly completions. -/
def HabitTracker.seed_data (now : DateTime) : List Habit :=
  let base : DateTime := ⟨now.day - 35, now.tod⟩
  let gen_daily : ℕ → List DateTime := fun weeks =>
    (List.range (weeks * 7)).map
      (fun (i : ℕ) => ⟨base.day + (i : ℤ), base.tod⟩)
  let gen_weekly : ℕ → List DateTime := fun weeks =>
    (List.range weeks).map
      (fun (i : ℕ) => ⟨base.day + (i : ℤ) * 7, base.tod⟩)
  [ ⟨"Exercise", Periodicity.daily, base, gen_daily 4⟩,
    ⟨"Read", Periodicity.daily, base, gen_daily 4⟩,
    ⟨"Meditate", Periodicity.daily, base, gen_daily 4⟩,
    ⟨"Call Family", Periodicity.weekly, base, gen_weekly 4⟩,
    ⟨"Clean House", Periodicity.weekly, base, gen_weekly 4⟩ ]

/-- The Monday of `d`'s week (`d.date() - timedelta(days=d.weekday())`). -/
def weekStart (d : DateTime) : ℤ := d.day - d.day % 7

/-- Specification of the daily streak: it is zero exactly when the
reference date carries no completion, every day it counts is a completed
date, the day just past it is not, and it is the unique number with that
property — i.e. the length of the maximal run of consecutive completed
calendar dates ending at the reference date. -/
def DailyStreakSpec (h : Habit) (ref : DateTime) : Prop :=
  (h.streak ref = 0 ↔ ref.day ∉ dailyDates h) ∧
  (∀ i : ℕ, i < h.streak ref → ref.day - (i : ℤ) ∈ dailyDates h) ∧
  ref.day - (h.streak ref : ℤ) ∉ dailyDates h ∧
  (∀ n : ℕ, (∀ i : ℕ, i < n → ref.day - (i : ℤ) ∈ dailyDates h) →
      ref.day - (n : ℤ) ∉ dailyDates h → n = h.streak ref)

/-- Specification of the weekly streak, over Monday-aligned week starts
in steps of seven days. -/
def WeeklyStreakSpec (h : Habit) (ref : DateTime) : Prop :=
  (h.streak ref = 0 ↔ weekStart ref ∉ weeklyWeeks h) ∧
  (∀ i : ℕ, i < h.streak ref → weekStart ref - 7 * (i : ℤ) ∈ weeklyWeeks h) ∧
  weekStart ref - 7 * (h.streak ref : ℤ) ∉ weeklyWeeks h ∧
  (∀ n : ℕ, (∀ i : ℕ, i < n → weekStart ref - 7 * (i : ℤ) ∈ weeklyWeeks h) →
      weekStart ref - 7 * (n : ℤ) ∉ weeklyWeeks h → n = h.streak ref)

/-- The maximum streak over a habit list (0 on the empty list). -/
def maxStreak (now : DateTime) (l : List Habit) : ℕ :=
  (l.map (fun h => h.streak now)).foldr max 0

/-- The leftmost habit of `l` whose streak attains the maximum. -/
def leftmostMax (now : DateTime) (l : List Habit) : Option Habit :=
  l.find? (fun h => h.streak now == maxStreak now l)

/-- Specification of `longest_streak_all`: no result exactly on an empty
collection; otherwise the first habit, in insertion order, whose streak is
the maximum streak of the collection. -/
def LongestStreakAllSpec (t : HabitTracker) (now : DateTime) : Prop :=
  (t.longest_streak_all now = none ↔ t.habits = []) ∧
  t.longest_streak_all now = leftmostMax now t.habits ∧
  ∀ h ∈ t.habits, h.streak now ≤ maxStreak now t.habits

/-- Specification of the index-addressed tracker operations.  All three
raise `IndexError` exactly when the index is invalid in Python's sense
(`-len ≤ index < len`, negative indices counting from the end) and leave
the state unchanged; a valid index acts on the addressed position, and
deletion shifts the later habits down by one, preserving their order. -/
def IndexOpsSpec (t : HabitTracker) (index : ℤ) (now date : DateTime) :
    Prop :=
  (pyIdx t.habits.length index = none ↔
      ¬(-(t.habits.length : ℤ) ≤ index ∧ index < t.habits.length)) ∧
  (pyIdx t.habits.length index = none →
      t.complete_habit index date = (t, some PyErr.indexError) ∧
      t.delete_habit index = (t, some PyErr.indexError) ∧
      t.longest_streak_for index now = Except.error PyErr.indexError) ∧
  (∀ j : Fin t.habits.length, pyIdx t.habits.length index = some j →
      (j : ℤ) = (if index < 0 then index + t.habits.length else index) ∧
      t.complete_habit index date =
        (⟨t.habits.set j ((t.habits.get j).complete date)⟩, none) ∧
      t.delete_habit index =
        (⟨t.habits.take j ++ t.habits.drop (j + 1)⟩, none) ∧
      t.longest_streak_for index now = Except.ok ((t.habits.get j).streak now))

/-- Specification of `add_habit`: an invalid periodicity string raises
`ValueError` out of the habit constructor and leaves the collection
unchanged; a valid one appends a fresh habit with no completions. -/
def AddHabitSpec (t : HabitTracker) (name periodicity : String)
    (now : DateTime) : Prop :=
  (periodicity ≠ "daily" → periodicity ≠ "weekly" →
      t.add_habit name periodicity now = (t, some PyErr.valueError)) ∧
  (periodicity = "daily" →
      t.add_habit name periodicity now =
        (⟨t.habits ++ [⟨name, Periodicity.daily, now, []⟩]⟩, none)) ∧
  (periodicity = "weekly" →
      t.add_habit name periodicity now =
        (⟨t.habits ++ [⟨name, Periodicity.weekly, now, []⟩]⟩, none))

/-- Specification of the seed data set, as a function of the construction
time: five habits, three daily and two weekly, all created at
`now - 35 days`; each daily habit is completed on the 28 consecutive days
`now - 35, …, now - 8`, each weekly habit on the four Mondays-aligned days
`now - 35, now - 28, now - 21, now - 14`. -/
def SeedDataSpec (now : DateTime) : Prop :=
  (HabitTracker.seed_data now).length = 5 ∧
  ((HabitTracker.seed_data now).filter
      (fun h => h.periodicity == Periodicity.daily)).length = 3 ∧
  ((HabitTracker.seed_data now).filter
      (fun h => h.periodicity == Periodicity.weekly)).length = 2 ∧
  (∀ h ∈ HabitTracker.seed_data now,
      h.created_at = ⟨now.day - 35, now.tod⟩) ∧
  (∀ h ∈ HabitTracker.seed_data now, h.periodicity = Periodicity.daily →
      h.completions.map (fun c => c.day) =
        (List.range 28).map (fun (i : ℕ) => now.day - 35 + (i : ℤ))) ∧
  (∀ h ∈ HabitTracker.seed_data now, h.periodicity = Periodicity.weekly →
      h.completions.map (fun c => c.day) =
        (List.range 4).map (fun (i : ℕ) => now.day - 35 + (i : ℤ) * 7))

/-- A daily habit completed on days 4, 5 and 6 (two completions on day 4),
for concrete instantiation. -/
def sampleDaily : Habit :=
  ⟨"Exercise", Periodicity.daily, ⟨0, 0⟩, [⟨4, 36000⟩, ⟨4, 100⟩, ⟨5, 0⟩, ⟨6, 0⟩]⟩

/-- A weekly habit completed in the weeks of day 0 and day 7. -/
def sampleWeekly : Habit :=
  ⟨"Call Family", Periodicity.weekly, ⟨0, 0⟩, [⟨3, 0⟩, ⟨8, 0⟩]⟩

/-- A daily habit already completed on day 0. -/
def sampleSeeded : Habit :=
  ⟨"Hydrate", Periodicity.daily, ⟨0, 0⟩, [⟨0, 0⟩]⟩

/-- A tracker holding one habit with no completions. -/
def sampleTracker : HabitTracker :=
  ⟨[⟨"A", Periodicity.daily, ⟨0, 0⟩, []⟩]⟩

/-- A tracker holding two habits with no completions. -/
def sampleTracker2 : HabitTracker :=
  ⟨[⟨"A", Periodicity.daily, ⟨0, 0⟩, []⟩,
    ⟨"B", Periodicity.weekly, ⟨0, 0⟩, []⟩]⟩

lemma streak_daily_eq (h : Habit) (ref : DateTime)
    (hp : h.periodicity = Periodicity.daily) (hne : h.completions ≠ []) :
    h.streak ref =
      if ref.day ∈ dailyDates h
      then runLen 1 one_pos (dailyDates h) ref.day else 0 := by
  unfold Habit.streak
  rw [if_neg hne, hp]
  exact ite_not (ref.day ∈ dailyDates h) 0 (runLen 1 one_pos (dailyDates h) ref.day) ▸ rfl

lemma streak_weekly_eq (h : Habit) (ref : DateTime)
    (hp : h.periodicity = Periodicity.weekly) (hne : h.completions ≠ []) :
    h.streak ref =
      if weekStart ref ∈ weeklyWeeks h
      then runLen 7 seven_pos (weeklyWeeks h) (weekStart ref) else 0 := by
  unfold Habit.streak
  rw [if_neg hne, hp]
  exact ite_not (weekStart ref ∈ weeklyWeeks h) 0
    (runLen 7 seven_pos (weeklyWeeks h) (weekStart ref)) ▸ rfl

lemma dailyDates_empty (h : Habit) (hne : h.completions = []) :
    dailyDates h = ∅ := by
  simp [dailyDates, hne]

lemma weeklyWeeks_empty (h : Habit) (hne : h.completions = []) :
    weeklyWeeks h = ∅ := by
  simp [weeklyWeeks, hne]

lemma streak_of_empty (h : Habit) (ref : DateTime)
    (hne : h.completions = []) : h.streak ref = 0 := by
  simp [Habit.streak, hne]

/-- C1: for every Daily habit and reference, the streak is 0 exactly when
the reference's calendar date has no completion (in particular on an empty
completions list), and otherwise is the length of the maximal run of
consecutive completed calendar dates ending at and including the
reference's date. -/
theorem daily_streak_correct (h : Habit) (ref : DateTime)
    (hp : h.periodicity = Periodicity.daily) : DailyStreakSpec h ref := by
  by_cases hne : h.completions = []
  · have hdates := dailyDates_empty h hne
    have hs := streak_of_empty h ref hne
    refine ⟨by simp [hs, hdates], ?_, by simp [hdates], ?_⟩
    · intro i hi
      omega
    · intro n h1 _h2
      rcases Nat.eq_zero_or_pos n with h0 | h0
      · omega
      · exact absurd (h1 0 h0) (by simp [hdates])
  · have hs := streak_daily_eq h ref hp hne
    by_cases hmem : ref.day ∈ dailyDates h
    · have hs2 : h.streak ref = runLen 1 one_pos (dailyDates h) ref.day := by
        rw [hs, if_pos hmem]
      refine ⟨?_, ?_, ?_, ?_⟩
      · constructor
        · intro h0
          rw [hs2] at h0
          exact absurd hmem (by
            intro hmem2
            have := runLen_pos 1 one_pos (dailyDates h) ref.day hmem2
            omega)
        · intro hn
          exact absurd hmem hn
      · intro i hi
        rw [hs2] at hi
        have := runLen_mem 1 one_pos (dailyDates h) ref.day i hi
        simpa using this
      · rw [hs2]
        have := runLen_gap 1 one_pos (dailyDates h) ref.day
        simpa using this
      · intro n h1 h2
        rw [hs2]
        refine runLen_unique 1 one_pos (dailyDates h) ref.day n ?_ ?_
        · intro i hi
          simpa using h1 i hi
        · simpa using h2
    · have hs0 : h.streak ref = 0 := by rw [hs, if_neg hmem]
      refine ⟨by simp [hs0, hmem], ?_, by simpa [hs0] using hmem, ?_⟩
      · intro i hi
        omega
      · intro n h1 _h2
        rcases Nat.eq_zero_or_pos n with h0 | h0
        · omega
        · exact absurd (by simpa using h1 0 h0) hmem

/-- Concrete instantiation of `daily_streak_correct`: a habit completed on
days 4, 5 and 6, checked at a reference on day 6. -/
theorem daily_streak_correct_witness :
    DailyStreakSpec sampleDaily ⟨6, 100⟩ :=
  daily_streak_correct sampleDaily ⟨6, 100⟩ rfl

/-- C2: for every Weekly habit and reference, the streak is 0 exactly when
the reference's Monday-aligned week has no completion, and otherwise is
the count of consecutive completed Monday-aligned weeks ending at and
including the reference's week. -/
theorem weekly_streak_correct (h : Habit) (ref : DateTime)
    (hp : h.periodicity = Periodicity.weekly) : WeeklyStreakSpec h ref := by
  by_cases hne : h.completions = []
  · have hweeks := weeklyWeeks_empty h hne
    have hs := streak_of_empty h ref hne
    refine ⟨by simp [hs, hweeks], ?_, by simp [hweeks], ?_⟩
    · intro i hi
      omega
    · intro n h1 _h2
      rcases Nat.eq_zero_or_pos n with h0 | h0
      · omega
      · exact absurd (h1 0 h0) (by simp [hweeks])
  · have hs := streak_weekly_eq h ref hp hne
    by_cases hmem : weekStart ref ∈ weeklyWeeks h
    · have hs2 : h.streak ref =
          runLen 7 seven_pos (weeklyWeeks h) (weekStart ref) := by
        rw [hs, if_pos hmem]
      refine ⟨?_, ?_, ?_, ?_⟩
      · constructor
        · intro h0
          rw [hs2] at h0
          exact absurd hmem (by
            intro hmem2
            have := runLen_pos 7 seven_pos (weeklyWeeks h) (weekStart ref) hmem2
            omega)
        · intro hn
          exact absurd hmem hn
      · intro i hi
        rw [hs2] at hi
        exact runLen_mem 7 seven_pos (weeklyWeeks h) (weekStart ref) i hi
      · rw [hs2]
        exact runLen_gap 7 seven_pos (weeklyWeeks h) (weekStart ref)
      · intro n h1 h2
        rw [hs2]
        exact runLen_unique 7 seven_pos (weeklyWeeks h) (weekStart ref) n h1 h2
    · have hs0 : h.streak ref = 0 := by rw [hs, if_neg hmem]
      refine ⟨by simp [hs0, hmem], ?_, by simpa [hs0] using hmem, ?_⟩
      · intro i hi
        omega
      · intro n h1 _h2
        rcases Nat.eq_zero_or_pos n with h0 | h0
        · omega
        · exact absurd (by simpa using h1 0 h0) hmem

/-- Concrete instantiation of `weekly_streak_correct`: a habit completed in
the weeks of day 0 and day 7, checked at a reference on day 9. -/
theorem weekly_streak_correct_witness :
    WeeklyStreakSpec sampleWeekly ⟨9, 5⟩ :=
  weekly_streak_correct sampleWeekly ⟨9, 5⟩ rfl

lemma already_after_complete (h : Habit) (d : DateTime) :
    (h.complete d).already_completed d = true := by
  unfold Habit.complete
  by_cases hc : h.already_completed d
  · rw [if_pos hc]
    exact hc
  · rw [if_neg (by simpa using hc)]
    unfold Habit.already_completed at hc ⊢
    cases hp : h.periodicity <;> rw [hp] at hc <;> simp

/-- C3 (counterexample to the claim as stated): on a habit already holding
a completion in the date's period, two consecutive `complete` calls add
zero completions, not one. -/
theorem complete_twice_cex :
    ((sampleSeeded.complete ⟨0, 500⟩).complete ⟨0, 500⟩).completions.length ≠
      sampleSeeded.completions.length + 1 := by decide

/-- C3 (amended): two consecutive `complete(date)` calls add exactly one
completion when no prior completion lies in `date`'s period, and zero
otherwise — never more than one. -/
theorem complete_twice_net (h : Habit) (d : DateTime) :
    ((h.complete d).complete d).completions.length =
      if h.already_completed d then h.completions.length
      else h.completions.length + 1 := by
  by_cases hc : h.already_completed d
  · have h1 : h.complete d = h := by
      unfold Habit.complete
      simp [hc]
    rw [h1, h1, if_pos hc]
  · have h2 := already_after_complete h d
    have h3 : (h.complete d).complete d = h.complete d := by
      generalize hgen : h.complete d = h2c at h2 ⊢
      unfold Habit.complete
      simp [h2]
    have h1 : h.complete d = { h with completions := h.completions ++ [d] } := by
      unfold Habit.complete
      simp [hc]
    rw [h3, h1, if_neg hc]
    simp

/-- C4: serialization followed by deserialization reproduces the habit
exactly — name, periodicity, creation instant, and the ordered completions
list including duplicates. -/
theorem to_dict_from_dict_roundtrip (h : Habit) :
    Habit.from_dict (Habit.to_dict h) = Except.ok h := by
  cases h with
  | mk name p created comps =>
    have hcomps : (comps.map DateTime.isoformat).map fromisoformat = comps := by
      rw [List.map_map]
      simp [Function.comp_def]
    cases p <;>
      simp [Habit.to_dict, Habit.from_dict, periodicityStr, hcomps, mkHabit]

lemma maxStreak_cons (now : DateTime) (x : Habit) (xs : List Habit) :
    maxStreak now (x :: xs) = max (x.streak now) (maxStreak now xs) := by
  simp [maxStreak]

lemma le_maxStreak (now : DateTime) (l : List Habit) :
    ∀ h ∈ l, h.streak now ≤ maxStreak now l := by
  induction l with
  | nil => simp
  | cons x xs ih =>
      intro h hmem
      rw [maxStreak_cons]
      rcases List.mem_cons.mp hmem with rfl | hmem2
      · exact le_max_left _ _
      · exact le_trans (ih h hmem2) (le_max_right _ _)

lemma keep_left_streak (now : DateTime) (a b : Habit) :
    (if b.streak now ≤ a.streak now then a else b).streak now =
      max (a.streak now) (b.streak now) := by
  by_cases hab : b.streak now ≤ a.streak now
  · rw [if_pos hab, max_eq_left hab]
  · rw [if_neg hab, max_eq_right (le_of_not_le hab)]

/-- Folding one comparison into the accumulator does not change the
leftmost habit with the maximum streak. -/
lemma leftmostMax_step (now : DateTime) (a b : Habit) (rs : List Habit) :
    leftmostMax now (a :: b :: rs) =
      leftmostMax now ((if b.streak now ≤ a.streak now then a else b) :: rs) := by
  have hfs := keep_left_streak now a b
  have hM : maxStreak now ((if b.streak now ≤ a.streak now then a else b) :: rs) =
      maxStreak now (a :: b :: rs) := by
    rw [maxStreak_cons, hfs, maxStreak_cons, maxStreak_cons, max_assoc]
  have hsa : a.streak now ≤ maxStreak now (a :: b :: rs) :=
    le_maxStreak now _ a (by simp)
  have hsb : b.streak now ≤ maxStreak now (a :: b :: rs) :=
    le_maxStreak now _ b (by simp)
  unfold leftmostMax
  rw [hM]
  by_cases h1 : a.streak now = maxStreak now (a :: b :: rs)
  · have hab : b.streak now ≤ a.streak now := by omega
    rw [if_pos hab]
    rw [List.find?_cons_of_pos _ (by simpa using h1),
      List.find?_cons_of_pos _ (by simpa using h1)]
  · rw [List.find?_cons_of_neg _ (by simpa using h1)]
    by_cases h2 : b.streak now = maxStreak now (a :: b :: rs)
    · have hab : ¬ b.streak now ≤ a.streak now := by omega
      rw [if_neg hab]
    · rw [List.find?_cons_of_neg _ (by simpa using h2)]
      have hne : ¬ ((if b.streak now ≤ a.streak now then a else b).streak now =
          maxStreak now (a :: b :: rs)) := by
        rw [hfs]
        omega
      rw [List.find?_cons_of_neg _ (by simpa using hne)]

lemma foldl_eq_leftmostMax (now : DateTime) :
    ∀ (l : List Habit) (a : Habit),
      leftmostMax now (a :: l) =
        some (l.foldl
          (fun x y => if y.streak now ≤ x.streak now then x else y) a) := by
  intro l
  induction l with
  | nil =>
      intro a
      simp [leftmostMax, maxStreak]
  | cons b rs ih =>
      intro a
      rw [leftmostMax_step, ih]
      rfl

/-- C5: `longest_streak_all` returns no habit exactly on an empty
collection and otherwise the first habit, in insertion order, whose streak
attains the collection's maximum streak at the evaluation time. -/
theorem longest_streak_all_correct (t : HabitTracker) (now : DateTime) :
    LongestStreakAllSpec t now := by
  obtain ⟨habits⟩ := t
  refine ⟨?_, ?_, le_maxStreak now habits⟩
  · cases habits with
    | nil => simp [HabitTracker.longest_streak_all]
    | cons a rest => simp [HabitTracker.longest_streak_all]
  · cases habits with
    | nil => simp [HabitTracker.longest_streak_all, leftmostMax]
    | cons a rest =>
        rw [foldl_eq_leftmostMax]
        rfl

/-- Concrete instantiation of `longest_streak_all_correct` on a two-habit
tracker. -/
theorem longest_streak_all_correct_witness :
    LongestStreakAllSpec sampleTracker2 ⟨0, 0⟩ :=
  longest_streak_all_correct sampleTracker2 ⟨0, 0⟩

/-- C9: `complete` either leaves the completions list unchanged or appends
the given date at the end, and never touches the other fields. -/
theorem complete_frame (h : Habit) (d : DateTime) :
    (h.complete d).name = h.name ∧
    (h.complete d).periodicity = h.periodicity ∧
    (h.complete d).created_at = h.created_at ∧
    ((h.complete d).completions = h.completions ∨
      (h.complete d).completions = h.completions ++ [d]) := by
  unfold Habit.complete
  by_cases hc : h.already_completed d <;> simp [hc]

lemma pyIdx_none_iff (n : ℕ) (i : ℤ) :
    pyIdx n i = none ↔ ¬(-(n : ℤ) ≤ i ∧ i < n) := by
  unfold pyIdx
  split_ifs <;>
    first
      | exact iff_of_false (by simp) (by omega)
      | exact iff_of_true rfl (by omega)

lemma pyIdx_some_val (n : ℕ) (i : ℤ) (j : Fin n) (h : pyIdx n i = some j) :
    (j : ℤ) = if i < 0 then i + n else i := by
  unfold pyIdx at h
  split_ifs at h ⊢ <;>
    (obtain rfl := Option.some.inj h
     exact Int.toNat_of_nonneg (by omega))

/-- C6 (counterexample to the claim as stated): on a one-habit tracker,
index `-1` is outside `0 ≤ index < length`, yet `longest_streak_for`
succeeds instead of raising — Python lists resolve negative indices from
the end. -/
theorem index_ops_cex :
    ¬(0 ≤ (-1 : ℤ) ∧ (-1 : ℤ) < (sampleTracker.habits.length : ℤ)) ∧
      sampleTracker.longest_streak_for (-1) ⟨0, 0⟩ = Except.ok 0 := by
  constructor
  · omega
  · rfl

/-- C6 (amended): the tracker operations raise `IndexError` exactly when
the index is invalid in Python's sense (`-len ≤ index < len`, negative
indices addressing from the end) and leave the state unchanged; a valid
index acts on the addressed position, deletion shifting later habits one
place down in order. -/
theorem index_ops_correct (t : HabitTracker) (index : ℤ)
    (now date : DateTime) : IndexOpsSpec t index now date := by
  refine ⟨pyIdx_none_iff t.habits.length index, ?_, ?_⟩
  · intro hnone
    refine ⟨?_, ?_, ?_⟩
    · simp only [HabitTracker.complete_habit, hnone]
    · simp only [HabitTracker.delete_habit, hnone]
    · simp only [HabitTracker.longest_streak_for, hnone]
  · intro j hsome
    refine ⟨pyIdx_some_val t.habits.length index j hsome, ?_, ?_, ?_⟩
    · simp only [HabitTracker.complete_habit, hsome]
    · simp only [HabitTracker.delete_habit, hsome,
        List.eraseIdx_eq_take_drop_succ]
    · simp only [HabitTracker.longest_streak_for, hsome]

/-- Concrete instantiation of `index_ops_correct` at index `-1` on a
one-habit tracker. -/
theorem index_ops_correct_witness :
    IndexOpsSpec sampleTracker (-1) ⟨0, 0⟩ ⟨0, 0⟩ :=
  index_ops_correct sampleTracker (-1) ⟨0, 0⟩ ⟨0, 0⟩

/-- C7: `add_habit` propagates `ValueError` from the habit constructor on
an invalid periodicity string, leaving the collection unchanged, and
otherwise appends a habit with the given name, the given periodicity, the
construction time and no completions. -/
theorem add_habit_correct (t : HabitTracker) (name periodicity : String)
    (now : DateTime) : AddHabitSpec t name periodicity now := by
  refine ⟨?_, ?_, ?_⟩
  · intro hd hw
    simp only [HabitTracker.add_habit, mkHabit, if_neg hd, if_neg hw]
  · intro hd
    simp only [HabitTracker.add_habit, mkHabit, if_pos hd]
  · intro hw
    by_cases hd : periodicity = "daily"
    · rw [hd] at hw
      exact absurd hw (by decide)
    · simp only [HabitTracker.add_habit, mkHabit, if_neg hd, if_pos hw]

/-- Concrete instantiation of `add_habit_correct` with an invalid
periodicity string. -/
theorem add_habit_correct_witness :
    AddHabitSpec sampleTracker "Hydrate" "monthly" ⟨0, 0⟩ :=
  add_habit_correct sampleTracker "Hydrate" "monthly" ⟨0, 0⟩

/-- C8 (counterexample to the claim as stated): constructing at day 100,
every completion of every seeded habit lies at least 8 days before the
construction date, so the synthetic histories do not end at
tracker-construction time. -/
theorem seed_data_cex :
    (HabitTracker.seed_data ⟨100, 0⟩).all
      (fun h => h.completions.all (fun c => decide (c.day + 8 ≤ 100))) = true := by
  decide

/-- C8 (amended): with no persisted state the tracker materializes, as a
deterministic function of the construction time `t`, exactly 5 habits — 3
daily and 2 weekly, all created at `t - 35 days` — the daily ones completed
on the 28 consecutive days `t - 35 … t - 8`, the weekly ones on the four
7-day-spaced days `t - 35, t - 28, t - 21, t - 14` (4 weeks of history,
ending 8 resp. 14 days before `t`, not at `t`). -/
theorem seed_data_correct (now : DateTime) : SeedDataSpec now := by
  refine ⟨rfl, rfl, rfl, ?_, ?_, ?_⟩
  · intro h hmem
    simp only [HabitTracker.seed_data, List.mem_cons, List.not_mem_nil,
      or_false] at hmem
    rcases hmem with rfl | rfl | rfl | rfl | rfl <;> rfl
  · intro h hmem hp
    simp only [HabitTracker.seed_data, List.mem_cons, List.not_mem_nil,
      or_false] at hmem
    rcases hmem with rfl | rfl | rfl | rfl | rfl
    · rw [List.map_map]
      rfl
    · rw [List.map_map]
      rfl
    · rw [List.map_map]
      rfl
    · exact absurd hp (by simp)
    · exact absurd hp (by simp)
  · intro h hmem hp
    simp only [HabitTracker.seed_data, List.mem_cons, List.not_mem_nil,
      or_false] at hmem
    rcases hmem with rfl | rfl | rfl | rfl | rfl
    · exact absurd hp (by simp)
    · exact absurd hp (by simp)
    · exact absurd hp (by simp)
    · rw [List.map_map]
      rfl
    · rw [List.map_map]
      rfl

/-- Concrete instantiation of `seed_data_correct` at construction time
day 0. -/
theorem seed_data_correct_witness : SeedDataSpec ⟨0, 0⟩ :=
  seed_data_correct ⟨0, 0⟩

/-- C10: `streak` is total (its loop is well-founded: each iteration
strictly shrinks the set of completed periods at or before the current
one) and runs at most one iteration per recorded completion, so its value
is bounded by the number of completions. -/
theorem streak_le_completions (h : Habit) (ref : DateTime) :
    h.streak ref ≤ h.completions.length := by
  by_cases hne : h.completions = []
  · simp [streak_of_empty h ref hne]
  · cases hp : h.periodicity
    · rw [streak_daily_eq h ref hp hne]
      by_cases hmem : ref.day ∈ dailyDates h
      · rw [if_pos hmem]
        have h1 := runLen_le_card 1 one_pos (dailyDates h) ref.day
        have h2 := Finset.card_filter_le (dailyDates h) (fun x => x ≤ ref.day)
        have h3 : (dailyDates h).card ≤ h.completions.length := by
          unfold dailyDates
          have := List.toFinset_card_le (h.completions.map (fun c => c.day))
          rwa [List.length_map] at this
        omega
      · simp [hmem]
    · rw [streak_weekly_eq h ref hp hne]
      by_cases hmem : weekStart ref ∈ weeklyWeeks h
      · rw [if_pos hmem]
        have h1 := runLen_le_card 7 seven_pos (weeklyWeeks h) (weekStart ref)
        have h2 := Finset.card_filter_le (weeklyWeeks h)
          (fun x => x ≤ weekStart ref)
        have h3 : (weeklyWeeks h).card ≤ h.completions.length := by
          unfold weeklyWeeks
          have := List.toFinset_card_le
            (h.completions.map (fun c => c.day - c.day % 7))
          rwa [List.length_map] at this
        omega
      · simp [hmem]
